import Mathlib

/-!
Shallow embedding of the linglong package-management daemon core
(`libs/linglong/src/linglong/package_manager/package_manager.cpp`) and
verification of the specification claims about it.

The layer store, the live-container inventory and the task registry are
modelled as explicit state; each engine operation is translated into a pure
function returning the new state together with the trace of primitive
repository operations it performed (lock, export, remove, pull, ...).
Components of the repository whose implementation is not part of the
analysed sources (the version parser, the ostree resolution policy, the
task state machine) are modelled from the specification and marked as such.
-/

namespace Linglong

/-- Modelled from the spec: the reference model version (`package::Version`
is not among the analysed sources).  A version is a list of dotted numeric
components compared lexicographically (missing trailing components count as
zero) together with an optional pre-release suffix; a version without a
pre-release suffix orders after one with a suffix, suffixes are compared
lexicographically. -/
structure Version where
  parts : List Nat
  pre : Option String
deriving DecidableEq, Repr

/-- Lexicographic comparison of dotted numeric components with implicit
zero padding: a shorter list compares as if extended with zeros. -/
def cmpParts : List Nat → List Nat → Ordering
  | [], bs => if bs.all (· = 0) then .eq else .lt
  | as, [] => if as.all (· = 0) then .eq else .gt
  | a :: as, b :: bs =>
      match compare a b with
      | .eq => cmpParts as bs
      | o => o

/-- Modelled from the spec: total order on versions. -/
def Version.cmp (a b : Version) : Ordering :=
  match cmpParts a.parts b.parts with
  | .eq =>
      match a.pre, b.pre with
      | none, none => .eq
      | none, some _ => .gt
      | some _, none => .lt
      | some x, some y => compare x y
  | o => o

/-- Canonical rendering of a version, `1.2.3` or `1.2.3-beta`. -/
def Version.render (v : Version) : String :=
  String.intercalate "." (v.parts.map Nat.repr)
    ++ (match v.pre with | none => "" | some p => "-" ++ p)

/-- A fully qualified package identity `(channel, id, version, architecture)`
(`package::Reference`). -/
structure Reference where
  channel : String
  id : String
  version : Version
  arch : String
deriving DecidableEq, Repr

/-- Canonical reference string `channel:id/version/arch`
(`Reference::toString`). -/
def Reference.toString (r : Reference) : String :=
  r.channel ++ ":" ++ r.id ++ "/" ++ r.version.render ++ "/" ++ r.arch

/-- A partially specified identity used in resolution
(`package::FuzzyReference`): only the id is mandatory. -/
structure FuzzyReference where
  channel : Option String
  id : String
  version : Option Version
  arch : Option String
deriving DecidableEq, Repr

/-- Modelled from the spec: rendering of a fuzzy reference
(`FuzzyReference::toString` is not among the analysed sources). -/
def FuzzyReference.render (f : FuzzyReference) : String :=
  (match f.channel with | some c => c ++ ":" | none => "")
    ++ f.id
    ++ (match f.version with | some v => "/" ++ v.render | none => "")
    ++ (match f.arch with | some a => "/" ++ a | none => "")

/-- The package metadata stored with a layer (`api::types::v1::PackageInfoV2`
as consumed by the engine).  The declared base and runtime dependencies are
kept in parsed (fuzzy-reference) form. -/
structure PackageInfoV2 where
  channel : String
  id : String
  version : Version
  arch : String
  kind : String
  packageInfoV2Module : String
  base : FuzzyReference
  runtime : Option FuzzyReference
  uuid : Option String
deriving DecidableEq, Repr

/-- The stored record for one (reference, module) pair
(`api::types::v1::RepositoryCacheLayersItem`). -/
structure RepositoryCacheLayersItem where
  info : PackageInfoV2
  commit : String
  deleted : Bool
deriving DecidableEq, Repr

/-- `Reference::fromPackageInfo`. -/
def refOfInfo (info : PackageInfoV2) : Reference :=
  ⟨info.channel, info.id, info.version, info.arch⟩

def refOfItem (it : RepositoryCacheLayersItem) : Reference :=
  refOfInfo it.info

/-- The state the engine acts on: the layer store items, the exported
references, the per-reference derived cache directories, and the live
container inventory (the `app` reference strings of the running
containers, read from `/run/linglong`). -/
structure PMState where
  items : List RepositoryCacheLayersItem
  exported : List Reference
  caches : List Reference
  running : List String
deriving DecidableEq, Repr

/-- The primitive operations a plan performs, in order.  `storeQuery` marks a
read of layer-store state (list, resolve, get-layer-dir, get-layer-item);
`dependencyPullEv` abstracts one run of the dependency pull of §4.6.6. -/
inductive Event where
  | lockAcquire
  | lockRelease
  | storeQuery
  | unexportRef (r : Reference)
  | exportRef (r : Reference)
  | removeCacheEv (r : Reference)
  | removeItemEv (r : Reference) (m : String) (sub : Option String)
  | markDeletedEv (r : Reference) (d : Bool) (m : String)
  | mergeModulesEv
  | pullEv (r : Reference) (m : String)
  | importLayerEv
  | generateCacheEv (r : Reference)
  | requestInteractionEv
  | dependencyPullEv
  | pruneStoreEv
deriving DecidableEq, Repr

/-- An item matches `(r, m)` when its metadata names exactly the reference
`r` and the module `m` (the lookup the store performs for `markDeleted` and
`remove`). -/
def itemMatches (it : RepositoryCacheLayersItem) (r : Reference) (m : String) : Bool :=
  decide (refOfItem it = r ∧ it.info.packageInfoV2Module = m)

/-- `repo.markDeleted(r, d, m)`. -/
def markDeletedS (s : PMState) (r : Reference) (d : Bool) (m : String) : PMState :=
  { s with items := s.items.map (fun it => if itemMatches it r m then { it with deleted := d } else it) }

/-- `repo.remove(r, m, subref?)`: the sub-reference selects the on-disk
materialization and does not change which record is deleted. -/
def removeItemS (s : PMState) (r : Reference) (m : String) : PMState :=
  { s with items := s.items.filter (fun it => !(itemMatches it r m)) }

/-- `repo.exportReference(r)` (idempotent). -/
def exportReference (s : PMState) (r : Reference) : PMState :=
  { s with exported := r :: s.exported.filter (fun x => !(decide (x = r))) }

/-- `repo.unexportReference(r)` (idempotent). -/
def unexportReference (s : PMState) (r : Reference) : PMState :=
  { s with exported := s.exported.filter (fun x => !(decide (x = r))) }

/-- `PackageManager::removeCache(r)`: drop the derived cache directory. -/
def removeCacheS (s : PMState) (r : Reference) : PMState :=
  { s with caches := s.caches.filter (fun x => !(decide (x = r))) }

/-- `list_local`: the non-deleted layer items. -/
def listLocal (s : PMState) : List PackageInfoV2 :=
  (s.items.filter (fun it => !it.deleted)).map (·.info)

/-- `repo.getModuleList(r)`: the module labels locally present for `r`. -/
def moduleListOf (s : PMState) (r : Reference) : List String :=
  ((listLocal s).filter (fun info => decide (refOfInfo info = r))).map (·.packageInfoV2Module)

/-- Modelled from the spec: `repo.clearReference(fuzzy, {fallbackToRemote
= false})` — the local resolution policy of the store adapter (not among
the analysed sources).  It returns the newest non-deleted local reference
matching every populated component of the fuzzy reference. -/
def clearReferenceLocal (items : List RepositoryCacheLayersItem) (f : FuzzyReference) :
    Option Reference :=
  let cands := items.filter (fun it =>
    !it.deleted && decide (it.info.id = f.id)
      && (match f.channel with | none => true | some c => decide (it.info.channel = c))
      && (match f.version with | none => true | some v => decide (it.info.version = v))
      && (match f.arch with | none => true | some a => decide (it.info.arch = a)))
  cands.foldl
    (fun best it =>
      match best with
      | none => some (refOfItem it)
      | some b => if (it.info.version.cmp b.version) = .gt then some (refOfItem it) else best)
    none

/-- `PackageManager::isRefBusy`: some running container's app reference
string equals the canonical string of `r`.  (The surrounding lock
acquisition and release are accounted for in the traces that call it.) -/
def isRefBusy (s : PMState) (r : Reference) : Bool :=
  s.running.contains r.toString

/-- Task states (`api::types::v1::State`). -/
inductive TaskState where
  | queued | processing | partCompleted | succeed | failed | canceled
deriving DecidableEq, Repr

/-- Task sub-states (`api::types::v1::SubState`). -/
inductive SubTaskState where
  | preAction | installApplication | installBase | installRuntime
  | uninstallSub | postAction | packageManagerDone | allDone
deriving DecidableEq, Repr

/-- `isTaskDone`. -/
def isDoneSub : SubTaskState → Bool
  | .allDone => true
  | .packageManagerDone => true
  | _ => false

def TaskState.isTerminal : TaskState → Bool
  | .succeed => true
  | .failed => true
  | .canceled => true
  | _ => false

/-- An observable task record. -/
structure Task where
  state : TaskState
  subState : SubTaskState
  msg : String
deriving DecidableEq, Repr

/-- Modelled from the spec: `PackageTask::updateState` (the task object is
not among the analysed sources).  Once the sub-state is terminal the update
is a no-op; recording a terminal state also drives the sub-state terminal so
that the next `isTaskDone` poll aborts the worker. -/
def Task.updateState (t : Task) (st : TaskState) (m : String) : Task :=
  if isDoneSub t.subState then t
  else if st.isTerminal then { state := st, subState := .allDone, msg := m }
  else { t with state := st, msg := m }

/-- Modelled from the spec: `PackageTask::updateSubState`, a no-op once the
sub-state is terminal. -/
def Task.updateSubState (t : Task) (sub : SubTaskState) (m : String) : Task :=
  if isDoneSub t.subState then t
  else { t with subState := sub, msg := m }

/-! ### Deferred-uninstall timer interval (constructor, C10) -/

/-- Errors thrown by `std::stoi`. -/
inductive StoiError where
  | invalidArgument
  | outOfRange
deriving DecidableEq, Repr

def isCppSpace (c : Char) : Bool :=
  c = ' ' || c = '\t' || c = '\n' || c = '\x0b' || c = '\x0c' || c = '\r'

def digitsValue : List Char → Nat
  | [] => 0
  | c :: cs => (c.toNat - '0'.toNat) * (10 ^ cs.length) + digitsValue cs

/-- The semantics of `std::stoi` (C++ standard library): skip leading
whitespace, accept an optional sign and a nonempty run of decimal digits
(trailing garbage is ignored); throw `invalid_argument` when no digits are
found and `out_of_range` when the value does not fit in `int`. -/
def stoi (s : String) : Except StoiError Int :=
  let cs := s.toList.dropWhile isCppSpace
  let (sign, rest) : Int × List Char :=
    match cs with
    | '-' :: r => (-1, r)
    | '+' :: r => (1, r)
    | _ => (1, cs)
  let ds := rest.takeWhile Char.isDigit
  if ds.isEmpty then .error .invalidArgument
  else
    let v : Int := sign * (digitsValue ds : Int)
    if v < -2147483648 ∨ 2147483647 < v then .error .outOfRange
    else .ok v

/-- The deferred-uninstall timer interval in seconds, as computed by the
`PackageManager` constructor from the `LINGLONG_DEFERRED_TIMEOUT`
environment variable: the default `3600s` is kept when the variable is
unset or `std::stoi` throws (the exception is caught and only logged, so
construction never aborts). -/
def deferredTimeoutSeconds (env : Option String) : Int :=
  match env with
  | none => 3600
  | some v =>
      match stoi v with
      | .ok n => n
      | .error _ => 3600

/-! ### `removeAfterInstall` (C2) -/

/-- The busy branch of `removeAfterInstall`: `markDeleted(old, true, m)` for
each module. -/
def markLoop (s : PMState) (oldRef : Reference) : List String → PMState × List Event
  | [] => (s, [])
  | m :: ms =>
      let s1 := markDeletedS s oldRef true m
      let (s2, evs) := markLoop s1 oldRef ms
      (s2, Event.markDeletedEv oldRef true m :: evs)

/-- The non-busy branch module loop of `removeAfterInstall`: remove the
derived cache for binary/runtime modules, then remove the layer item. -/
def ramRemoveLoop (s : PMState) (oldRef : Reference) : List String → PMState × List Event
  | [] => (s, [])
  | m :: ms =>
      let s1 := if m = "binary" ∨ m = "runtime" then removeCacheS s oldRef else s
      let s2 := removeItemS s1 oldRef m
      let (s3, evs) := ramRemoveLoop s2 oldRef ms
      (s3,
        (if m = "binary" ∨ m = "runtime" then [Event.removeCacheEv oldRef] else [])
          ++ Event.removeItemEv oldRef m none :: evs)

/-- `PackageManager::removeAfterInstall(old, new, modules)`.  The leading
lock acquire/release pair is the `isRefBusy` critical section. -/
def removeAfterInstall (s : PMState) (oldRef newRef : Reference) (modules : List String) :
    PMState × List Event :=
  if isRefBusy s oldRef then
    let (s1, evs) := markLoop s oldRef modules
    (s1, Event.lockAcquire :: Event.lockRelease :: evs)
  else
    let s1 := unexportReference s oldRef
    let (s2, evs) := ramRemoveLoop s1 oldRef modules
    (exportReference s2 newRef,
      Event.lockAcquire :: Event.lockRelease :: Event.unexportRef oldRef ::
        evs ++ [Event.mergeModulesEv, Event.exportRef newRef])

/-! ### `deferredUninstall` (C1) -/

/-- The events `deferredUninstall` performs for one deleted layer item of a
group: binary/runtime modules additionally lose their derived cache, then
`remove(ref, module, item.info.uuid)`. -/
def itemRemovalEvents (r : Reference) (it : RepositoryCacheLayersItem) : List Event :=
  (if it.info.packageInfoV2Module = "binary" ∨ it.info.packageInfoV2Module = "runtime"
    then [Event.removeCacheEv r] else [])
    ++ [Event.removeItemEv r it.info.packageInfoV2Module it.info.uuid]

/-- The per-item loop of one `deferredUninstall` group. -/
def groupRemoveLoop (s : PMState) (r : Reference) :
    List RepositoryCacheLayersItem → PMState × List Event
  | [] => (s, [])
  | it :: rest =>
      let s1 := if it.info.packageInfoV2Module = "binary" ∨ it.info.packageInfoV2Module = "runtime"
                then removeCacheS s r else s
      let s2 := removeItemS s1 r it.info.packageInfoV2Module
      let (s3, evs) := groupRemoveLoop s2 r rest
      (s3, itemRemovalEvents r it ++ evs)

/-- The version-less fuzzy reference `deferredUninstall` re-resolves after a
group is removed. -/
def latestFuzzy (r : Reference) : FuzzyReference :=
  ⟨some r.channel, r.id, none, some r.arch⟩

/-- Processing of one surviving group: unexport, remove caches and items,
merge modules, then re-export the newest remaining local reference with the
same id (when one resolves). -/
def processGroup (st : PMState) (g : Reference × List RepositoryCacheLayersItem) :
    PMState × List Event :=
  let s1 := unexportReference st g.1
  let (s2, evs) := groupRemoveLoop s1 g.1 g.2
  match clearReferenceLocal s2.items (latestFuzzy g.1) with
  | some l =>
      (exportReference s2 l,
        Event.unexportRef g.1 :: evs ++ [Event.mergeModulesEv, Event.exportRef l])
  | none => (s2, Event.unexportRef g.1 :: evs ++ [Event.mergeModulesEv])

/-- Insertion-ordered grouping of the deleted layer items by the canonical
string of their reference (`std::unordered_map::try_emplace` keyed by
`ref->toString()`). -/
def addToGroups (gs : List (Reference × List RepositoryCacheLayersItem))
    (r : Reference) (it : RepositoryCacheLayersItem) :
    List (Reference × List RepositoryCacheLayersItem) :=
  match gs with
  | [] => [(r, [it])]
  | (r', its) :: rest =>
      if r'.toString = r.toString then (r', its ++ [it]) :: rest
      else (r', its) :: addToGroups rest r it

def groupByRef (items : List RepositoryCacheLayersItem) :
    List (Reference × List RepositoryCacheLayersItem) :=
  items.foldl (fun gs it => addToGroups gs (refOfItem it) it) []

/-- The deleted-item groups whose reference is not busy: the groups whose
key equals the app string of some running container are dropped. -/
def survivingGroups (s : PMState) : List (Reference × List RepositoryCacheLayersItem) :=
  (groupByRef (s.items.filter (·.deleted))).filter
    (fun g => !(s.running.contains g.1.toString))

def runGroups (s : PMState) :
    List (Reference × List RepositoryCacheLayersItem) → PMState × List Event
  | [] => (s, [])
  | g :: gs =>
      let (s1, e1) := processGroup s g
      let (s2, e2) := runGroups s1 gs
      (s2, e1 ++ e2)

/-- `PackageManager::deferredUninstall`: under the repository lock, group
the deleted layer items by reference, drop the busy groups, and physically
remove each surviving group. -/
def deferredUninstall (s : PMState) : PMState × List Event :=
  let (s', evs) := runGroups s (survivingGroups s)
  (s', Event.lockAcquire :: evs ++ [Event.lockRelease])

/-! ### Synchronous replies of the engine entry points -/

/-- The two interaction message kinds the install paths use. -/
inductive InteractionMsgType where
  | installMsg
  | upgradeMsg
deriving DecidableEq, Repr

/-- What an engine entry point returns to the client before any task runs:
either an error reply built with `toDBusReply` (no task is created) or an
enqueued task. -/
inductive SyncReply where
  | err (code : Int) (msg : String) (rtype : String)
  | task (ref : Reference) (moduleName : String)
deriving DecidableEq, Repr

/-- The outcome of the pre-enqueue classification of a remote binary
install. -/
inductive InstallClassification where
  | alreadyInstalled (localRef : Reference)
  | downgradeRefused
  | proceed (msgType : InteractionMsgType)
deriving DecidableEq, Repr

/-- The classification block of `PackageManager::Install` (and, with the
same comparisons, of `installFromLayer` / `installFromUAB`): given the
version-less local resolution result and the resolved remote reference,
fail `AlreadyInstalled` on an equal version, classify a greater remote
version as an upgrade, and refuse a smaller remote version unless `force`
is set. -/
def installClassification (localRef : Option Reference) (remoteRef : Reference)
    (force : Bool) : InstallClassification :=
  match localRef with
  | none => .proceed .installMsg
  | some l =>
      if remoteRef.version.cmp l.version = .eq then .alreadyInstalled l
      else if remoteRef.version.cmp l.version = .gt then .proceed .upgradeMsg
      else if !force then .downgradeRefused
      else .proceed .installMsg

/-- The synchronous part of `PackageManager::Uninstall`: resolve the fuzzy
reference locally (fail `not installed` when absent), then fail with a
user-notification reply when the reference is busy; only otherwise is a
task enqueued.  The state is returned unchanged on the error paths. -/
def uninstallEntry (s : PMState) (fuzzy : FuzzyReference) (moduleName : String) :
    SyncReply × PMState :=
  match clearReferenceLocal s.items fuzzy with
  | none => (.err (-1) (fuzzy.render ++ " not installed.") "display", s)
  | some ref =>
      if isRefBusy s ref then
        (.err (-1)
          ("The application is currently running and cannot be uninstalled. "
            ++ "Please turn off the application and try again.") "notification", s)
      else (.task ref moduleName, s)

/-- The synchronous validation prefix of `PackageManager::installFromLayer`:
reject any module label other than binary/runtime, reject a foreign
architecture, then classify against the version-less local resolution
(treating the local reference as present only when its layer directory for
the incoming module is valid). -/
def installFromLayerEntry (s : PMState) (info : PackageInfoV2) (hostArch : String)
    (force : Bool) : SyncReply :=
  if ¬(info.packageInfoV2Module = "binary" ∨ info.packageInfoV2Module = "runtime") then
    .err (-1) "The current version does not support the develop module installation." "display"
  else if ¬(info.arch = hostArch) then
    .err (-1) "app arch not match host architecture" "display"
  else
    let packageRef := refOfInfo info
    let localRef := clearReferenceLocal s.items ⟨none, info.id, none, none⟩
    let localShown : Bool :=
      match localRef with
      | some l => !(s.items.filter (fun it => itemMatches it l info.packageInfoV2Module)).isEmpty
      | none => false
    if localShown then
      match localRef with
      | some l =>
          if packageRef.version.cmp l.version = .eq then
            .err (-1) (l.toString ++ " is already installed") "display"
          else if packageRef.version.cmp l.version = .gt then
            .task packageRef info.packageInfoV2Module
          else if !force then
            .err (-1) "The latest version has been installed." "display"
          else .task packageRef info.packageInfoV2Module
      | none => .task packageRef info.packageInfoV2Module
    else .task packageRef info.packageInfoV2Module

/-! ### `InstallRef` (C4) -/

/-- The match the deleted-item reconciliation performs between a requested
module and a stored module label: equal labels, or the binary/runtime pair
in either direction. -/
def moduleEquivMatch (requested itemModule : String) : Bool :=
  (requested = "runtime" && itemModule = "binary")
    || (requested = "binary" && itemModule = "runtime")
    || requested = itemModule

/-- First element of the pending list matching the predicate. -/
def findMatch (p : String → Bool) : List String → Option String
  | [] => none
  | x :: xs => if p x then some x else findMatch p xs

/-- Drop the first element of the pending list matching the predicate
(`modules.erase(it)` at the iterator `std::find_if` returned). -/
def eraseFirstMatch (p : String → Bool) : List String → List String
  | [] => []
  | x :: xs => if p x then xs else x :: eraseFirstMatch p xs

/-- The query `InstallRef` issues for previously deleted layer items:
`(id, channel, version)` equal to the target reference (the architecture is
not part of the query) and the deleted flag set. -/
def deletedQuery (s : PMState) (ref : Reference) : List RepositoryCacheLayersItem :=
  s.items.filter (fun it =>
    it.deleted && decide (it.info.id = ref.id)
      && decide (it.info.channel = ref.channel)
      && decide (it.info.version = ref.version))

/-- The reconciliation loop of `InstallRef`: for each previously deleted
item whose module matches a still-pending requested module, clear its
deleted flag and drop the matched requested module from the pending pull
list. -/
def reconcileLoop (s : PMState) (ref : Reference) :
    List RepositoryCacheLayersItem → List String → PMState × List String × List Event
  | [], pending => (s, pending, [])
  | it :: rest, pending =>
      match findMatch (fun m => moduleEquivMatch m it.info.packageInfoV2Module) pending with
      | none => reconcileLoop s ref rest pending
      | some _ =>
          let s1 := markDeletedS s ref false it.info.packageInfoV2Module
          let pending1 := eraseFirstMatch
            (fun m => moduleEquivMatch m it.info.packageInfoV2Module) pending
          let (s2, pending2, evs) := reconcileLoop s1 ref rest pending1
          (s2, pending2, Event.markDeletedEv ref false it.info.packageInfoV2Module :: evs)

/-- The pull loop of `InstallRef`: pull each remaining module; a
binary/runtime module additionally materializes its layer directory and
runs the dependency pull. -/
def pullLoop (ref : Reference) : List String → List Event
  | [] => []
  | m :: ms =>
      (Event.pullEv ref m ::
        (if m = "binary" ∨ m = "runtime" then [Event.storeQuery, Event.dependencyPullEv] else []))
        ++ pullLoop ref ms

/-- `PackageManager::InstallRef(task, ref, modules)` for a task that is not
already done and a reference of the host architecture: query the deleted
items, reconcile them against the requested modules, then pull the
remaining modules.  (The repository operations are modelled as infallible,
so the early-exit polls inside the loops never fire.) -/
def installRefRun (s : PMState) (ref : Reference) (modules : List String) :
    PMState × List String × List Event :=
  let dl := deletedQuery s ref
  let (s1, pending, evs) := reconcileLoop s ref dl modules
  (s1, pending, Event.storeQuery :: evs ++ pullLoop ref pending)

/-- Follows the spec's words (§4.6.5 step 2): walking the deleted items in
store order, collect the modules whose deleted flag is cleared and consume
the pending pull list. -/
def reconcileSpecModel :
    List RepositoryCacheLayersItem → List String → List String × List String
  | [], pending => ([], pending)
  | it :: rest, pending =>
      match findMatch (fun m => moduleEquivMatch m it.info.packageInfoV2Module) pending with
      | none => reconcileSpecModel rest pending
      | some _ =>
          let pending1 := eraseFirstMatch
            (fun m => moduleEquivMatch m it.info.packageInfoV2Module) pending
          let (cleared, pending2) := reconcileSpecModel rest pending1
          (it.info.packageInfoV2Module :: cleared, pending2)

/-- The `markDeleted(_, false, _)` calls recorded in a trace. -/
def clearedMarksOf (evs : List Event) : List (Reference × String) :=
  evs.filterMap (fun e =>
    match e with
    | .markDeletedEv r false m => some (r, m)
    | _ => none)

/-- The pulls recorded in a trace. -/
def pullsOf (evs : List Event) : List (Reference × String) :=
  evs.filterMap (fun e =>
    match e with
    | .pullEv r m => some (r, m)
    | _ => none)

/-! ### The remote-install worker plan (C5, C8) -/

/-- The inputs the enqueued installer closure captures, together with the
black-box answers of the remote store: the resolved remote reference, the
version-less local resolution, the modules to (re)install, the module
labels the remote offers, and the kind recorded for the new layer item. -/
structure InstallPlanInput where
  remoteRef : Reference
  localRef : Option Reference
  hostArch : String
  modules : List String
  remoteAvail : List String
  newKind : String
  msgType : InteractionMsgType
  skipInteraction : Bool
  replyAction : String
deriving DecidableEq, Repr

/-- The interaction prelude of the installer closures: on an upgrade
without `skipInteraction`, emit `RequestInteraction`, park until the reply
arrives, and transition the task to `Canceled` when the delivered action is
anything but `"yes"`. -/
def interactionPrelude (t : Task) (msgType : InteractionMsgType) (skip : Bool)
    (reply : String) : Task × List Event :=
  if msgType = .upgradeMsg ∧ skip = false then
    let t1 := if ¬(reply = "yes") then t.updateState .canceled "canceled" else t
    (t1, [Event.requestInteractionEv])
  else (t, [])

/-- `PackageManager::InstallRef` as run by a task: the sub-state updates and
the arch gate, the deleted-item query, the reconciliation and the pulls. -/
def installRefTaskEvents (s : PMState) (t : Task) (hostArch : String) (ref : Reference)
    (modules : List String) : Task × PMState × List Event :=
  let t1 := t.updateSubState .preAction "Beginning to install"
  let t2 := if ¬(ref.arch = hostArch) then t1.updateState .failed "arch mismatch" else t1
  let t3 := t2.updateSubState .installApplication "Installing application"
  if isDoneSub t3.subState then (t3, s, [Event.storeQuery])
  else
    let (s1, pending, evs) := reconcileLoop s ref (deletedQuery s ref) modules
    (t3, s1, Event.storeQuery :: evs ++ pullLoop ref pending)

/-- The body of the installer closure of `PackageManager::Install` together
with the `Install(task, newRef, oldRef, modules)` plan it invokes:
interaction prelude, abort when done, restriction to the remotely available
modules, `InstallRef`, merge, and the export / replace / cache tail for an
app-kind item. -/
def installPlanEvents (s : PMState) (t : Task) (inp : InstallPlanInput) :
    Task × List Event :=
  let (t1, e1) := interactionPrelude t inp.msgType inp.skipInteraction inp.replyAction
  if isDoneSub t1.subState then (t1, e1)
  else
    let t2 := t1.updateState .processing "Installing"
    let installModules := inp.modules.filter (fun m => inp.remoteAvail.contains m)
    if installModules.isEmpty then
      (t2.updateState .failed "These modules do not exist remotely", e1)
    else
      let (t3, s1, e2) := installRefTaskEvents s t2 inp.hostArch inp.remoteRef installModules
      if isDoneSub t3.subState then (t3, e1 ++ e2)
      else
        let t4 := t3.updateSubState .postAction "processing after install"
        let e3 := [Event.mergeModulesEv, Event.storeQuery]
        if inp.newKind = "app" then
          match inp.localRef with
          | some oldRef =>
              let (_, e4) := removeAfterInstall s1 oldRef inp.remoteRef inp.modules
              (t4.updateState .succeed "Install success",
                e1 ++ e2 ++ e3 ++ e4 ++ [Event.generateCacheEv inp.remoteRef])
          | none =>
              (t4.updateState .succeed "Install success",
                e1 ++ e2 ++ e3 ++ [Event.exportRef inp.remoteRef,
                  Event.generateCacheEv inp.remoteRef])
        else (t4.updateState .succeed "Install success", e1 ++ e2 ++ e3)

/-- The events that touch layer-store state (reads or writes); lock
events, cache-directory operations, container runs and interaction events
are not store accesses. -/
def isStoreAccess : Event → Bool
  | .storeQuery => true
  | .unexportRef _ => true
  | .exportRef _ => true
  | .removeItemEv _ _ _ => true
  | .markDeletedEv _ _ _ => true
  | .mergeModulesEv => true
  | .pullEv _ _ => true
  | .importLayerEv => true
  | .pruneStoreEv => true
  | _ => false

/-- The discipline the claim describes, checked over a trace: every store
access happens at positive lock depth, releases match acquires, and the
lock is fully released at the end of the trace. -/
def lockGuardedFrom : Nat → List Event → Bool
  | d, [] => decide (d = 0)
  | d, Event.lockAcquire :: rest => lockGuardedFrom (d + 1) rest
  | d, Event.lockRelease :: rest => decide (0 < d) && lockGuardedFrom (d - 1) rest
  | d, e :: rest => (!isStoreAccess e || decide (0 < d)) && lockGuardedFrom d rest

def lockGuarded (evs : List Event) : Bool := lockGuardedFrom 0 evs

/-- Every store access in the trace happens at lock depth zero. -/
def storeUnlockedFrom : Nat → List Event → Bool
  | _, [] => true
  | d, Event.lockAcquire :: rest => storeUnlockedFrom (d + 1) rest
  | d, Event.lockRelease :: rest => storeUnlockedFrom (d - 1) rest
  | d, e :: rest => (!isStoreAccess e || decide (d = 0)) && storeUnlockedFrom d rest

def storeUnlocked (evs : List Event) : Bool := storeUnlockedFrom 0 evs

/-! ### `Prune` (C7) -/

/-- `target[r] += 1` on the `std::unordered_map`, kept as an
insertion-ordered association list. -/
def bumpCount : List (Reference × Nat) → Reference → List (Reference × Nat)
  | [], r => [(r, 1)]
  | (r', n) :: rest, r =>
      if r' = r then (r', n + 1) :: rest else (r', n) :: bumpCount rest r

/-- `target.try_emplace(r, 0)`. -/
def emplaceZero : List (Reference × Nat) → Reference → List (Reference × Nat)
  | [], r => [(r, 0)]
  | (r', n) :: rest, r =>
      if r' = r then (r', n) :: rest else (r', n) :: emplaceZero rest r

/-- One step of the reference-count pass of `PackageManager::Prune`:
non-binary/runtime items are skipped; a non-app item enters the candidate
map with count zero; an app item bumps the counts of its locally resolved
runtime and base — and when the declared runtime fails to resolve locally,
the `continue` in the source skips the base of that app as well. -/
def pruneStep (s : PMState) (acc : List (Reference × Nat)) (info : PackageInfoV2) :
    List (Reference × Nat) :=
  if ¬(info.packageInfoV2Module = "binary" ∨ info.packageInfoV2Module = "runtime") then acc
  else if ¬(info.kind = "app") then emplaceZero acc (refOfInfo info)
  else
    match info.runtime with
    | some rf =>
        match clearReferenceLocal s.items rf with
        | none => acc
        | some rr =>
            let acc1 := bumpCount acc rr
            match clearReferenceLocal s.items info.base with
            | none => acc1
            | some br => bumpCount acc1 br
    | none =>
        match clearReferenceLocal s.items info.base with
        | none => acc
        | some br => bumpCount acc br

/-- The candidate map after the counting pass. -/
def pruneCounts (s : PMState) : List (Reference × Nat) :=
  (listLocal s).foldl (pruneStep s) []

/-- The removal of all modules of one removable reference: look up the
layer of each locally listed module, record its metadata in the removal
report, and remove the layer item. -/
def removeModsLoop (s : PMState) (r : Reference) :
    List String → PMState × List PackageInfoV2 × List Event
  | [] => (s, [], [])
  | m :: ms =>
      match s.items.find? (fun it => itemMatches it r m) with
      | none => removeModsLoop s r ms
      | some it =>
          let s1 := removeItemS s r m
          let (s2, infos, evs) := removeModsLoop s1 r ms
          (s2, it.info :: infos, Event.storeQuery :: Event.removeItemEv r m none :: evs)

def removeRefModules (s : PMState) (r : Reference) :
    PMState × List PackageInfoV2 × List Event :=
  removeModsLoop s r (moduleListOf s r)

/-- The removal pass: each candidate with count zero loses all of its
modules. -/
def pruneRemoveLoop (s : PMState) :
    List (Reference × Nat) → PMState × List PackageInfoV2 × List Event
  | [] => (s, [], [])
  | (r, n) :: rest =>
      if n = 0 then
        let (s1, infos1, e1) := removeRefModules s r
        let (s2, infos2, e2) := pruneRemoveLoop s1 rest
        (s2, infos1 ++ infos2, e1 ++ e2)
      else pruneRemoveLoop s rest

/-- `PackageManager::Prune(removed)`: list the local items, count, remove
the zero-count candidates, merge the modules when the candidate map is
nonempty, and garbage-collect the store. -/
def pruneExec (s : PMState) : PMState × List PackageInfoV2 × List Event :=
  let tgt := pruneCounts s
  let (s1, infos, e1) := pruneRemoveLoop s tgt
  (s1, infos,
    Event.storeQuery :: e1
      ++ (if tgt.isEmpty then [] else [Event.mergeModulesEv])
      ++ [Event.pruneStoreEv])

/-- The zero-count keys of a candidate map. -/
def zeroKeys (tgt : List (Reference × Nat)) : List Reference :=
  (tgt.filter (fun p => p.2 = 0)).map Prod.fst

/-- The candidates the removal pass deletes. -/
def zeroRefs (s : PMState) : List Reference :=
  zeroKeys (pruneCounts s)

/-- Follows the claim's words: the reference count a reference receives
from the installed apps' declared runtime and base dependencies, each
resolved locally with no remote fallback and counted independently of the
other. -/
def claimRefCount (s : PMState) (r : Reference) : Nat :=
  ((listLocal s).filter (fun info => decide (info.kind = "app"))).foldl
    (fun n info =>
      n + (match info.runtime with
           | some rf => if clearReferenceLocal s.items rf = some r then 1 else 0
           | none => 0)
        + (if clearReferenceLocal s.items info.base = some r then 1 else 0)) 0

/-! ### Concrete fixtures used by witnesses and counterexamples -/

def wArch : String := "x86_64"

def wVer (a b c : Nat) : Version := ⟨[a, b, c], none⟩

def wRefOf (id : String) (a b c : Nat) : Reference := ⟨"main", id, wVer a b c, wArch⟩

def wInfoApp : PackageInfoV2 :=
  { channel := "main", id := "org.example.calc", version := wVer 1 0 0, arch := wArch,
    kind := "app", packageInfoV2Module := "binary",
    base := ⟨none, "org.example.base", none, none⟩, runtime := none, uuid := none }

def wItemApp : RepositoryCacheLayersItem := ⟨wInfoApp, "commitA", false⟩

def wEmptyState : PMState := ⟨[], [], [], []⟩

def wBusyState : PMState := ⟨[wItemApp], [], [], [(refOfInfo wInfoApp).toString]⟩

def wFreeState : PMState := ⟨[wItemApp], [], [], []⟩

def wFuzzyCalc : FuzzyReference := ⟨none, "org.example.calc", none, none⟩

def wTask : Task := ⟨.queued, .preAction, ""⟩

/-! ### Claim theorems -/

/-- Claim C10: when `LINGLONG_DEFERRED_TIMEOUT` is unset, or its value
makes `std::stoi` throw (`invalid_argument` or `out_of_range`), the
deferred-uninstall interval is the default 3600 seconds; the parse failure
is caught (construction never aborts), only logged. -/
theorem claim_C10 (env : Option String) :
    (env = none → deferredTimeoutSeconds env = 3600)
  ∧ (∀ v e, env = some v → stoi v = .error e → deferredTimeoutSeconds env = 3600) := by
  constructor
  · rintro rfl
    rfl
  · rintro v e rfl h
    simp [deferredTimeoutSeconds, h]

/-- Witness for C10: the unset case and two concrete malformed values. -/
theorem claim_C10_witness :
    deferredTimeoutSeconds none = 3600
  ∧ deferredTimeoutSeconds (some "abc") = 3600
  ∧ deferredTimeoutSeconds (some "99999999999") = 3600 :=
  ⟨(claim_C10 none).1 rfl,
   (claim_C10 (some "abc")).2 "abc" .invalidArgument rfl rfl,
   (claim_C10 (some "99999999999")).2 "99999999999" .outOfRange rfl rfl⟩

/-- Claim C3: in the classification block of a remote binary install with a
local reference of the same id, an equal resolved remote version fails
synchronously with already-installed (no task is created), a greater
remote version classifies the plan as an upgrade, and a smaller remote
version is refused unless `force` is set. -/
theorem claim_C3 (l remoteRef : Reference) (force : Bool) :
    (remoteRef.version.cmp l.version = .eq →
        installClassification (some l) remoteRef force = .alreadyInstalled l)
  ∧ (remoteRef.version.cmp l.version = .gt →
        installClassification (some l) remoteRef force = .proceed .upgradeMsg)
  ∧ (remoteRef.version.cmp l.version = .lt →
        (force = false → installClassification (some l) remoteRef force = .downgradeRefused)
      ∧ (force = true → installClassification (some l) remoteRef force = .proceed .installMsg)) := by
  refine ⟨fun h => ?_, fun h => ?_, fun h => ⟨fun hf => ?_, fun hf => ?_⟩⟩
  · simp [installClassification, h]
  · simp [installClassification, h]
  · simp [installClassification, h, hf]
  · simp [installClassification, h, hf]

/-- Witness for C3: both versions around `1.0.0` with a `1.1.0` remote. -/
theorem claim_C3_witness :
    installClassification (some (wRefOf "org.example.calc" 1 0 0))
        (wRefOf "org.example.calc" 1 1 0) false = .proceed .upgradeMsg
  ∧ installClassification (some (wRefOf "org.example.calc" 1 0 0))
        (wRefOf "org.example.calc" 1 0 0) false
      = .alreadyInstalled (wRefOf "org.example.calc" 1 0 0)
  ∧ installClassification (some (wRefOf "org.example.calc" 1 0 0))
        (wRefOf "org.example.calc" 0 9 0) false = .downgradeRefused :=
  ⟨(claim_C3 (wRefOf "org.example.calc" 1 0 0) (wRefOf "org.example.calc" 1 1 0) false).2.1
      (by decide),
   (claim_C3 (wRefOf "org.example.calc" 1 0 0) (wRefOf "org.example.calc" 1 0 0) false).1
      (by decide),
   ((claim_C3 (wRefOf "org.example.calc" 1 0 0) (wRefOf "org.example.calc" 0 9 0) false).2.2
      (by decide)).1 rfl⟩

/-- Claim C6: an uninstall request whose fuzzy reference does not resolve
locally gets a synchronous not-installed error; one whose resolved
reference is busy gets a synchronous in-use error with the
user-notification reply type; in both cases no task is created and the
store state is returned unchanged. -/
theorem claim_C6 (s : PMState) (fuzzy : FuzzyReference) (m : String) :
    (clearReferenceLocal s.items fuzzy = none →
        uninstallEntry s fuzzy m
          = (.err (-1) (fuzzy.render ++ " not installed.") "display", s))
  ∧ (∀ ref, clearReferenceLocal s.items fuzzy = some ref → isRefBusy s ref = true →
        uninstallEntry s fuzzy m
          = (.err (-1)
              ("The application is currently running and cannot be uninstalled. "
                ++ "Please turn off the application and try again.") "notification", s)) := by
  constructor
  · intro h
    simp [uninstallEntry, h]
  · intro ref h hb
    simp [uninstallEntry, h, hb]

/-- Witness for C6: an empty store (not installed) and a store whose only
app is running (in use). -/
theorem claim_C6_witness :
    uninstallEntry wEmptyState wFuzzyCalc "binary"
      = (.err (-1) (wFuzzyCalc.render ++ " not installed.") "display", wEmptyState)
  ∧ uninstallEntry wBusyState wFuzzyCalc "binary"
      = (.err (-1)
          ("The application is currently running and cannot be uninstalled. "
            ++ "Please turn off the application and try again.") "notification", wBusyState) :=
  ⟨(claim_C6 wEmptyState wFuzzyCalc "binary").1 (by decide),
   (claim_C6 wBusyState wFuzzyCalc "binary").2 (refOfInfo wInfoApp) (by decide) (by decide)⟩

/-- Claim C5: an upgrade-classified install task without `skipInteraction`
emits `RequestInteraction` and blocks; a delivered reply whose action is
anything but `"yes"` transitions the task to `Canceled`, and the trace of
that task is just the interaction request — no pull, import, export or
cache-generation step runs. -/
theorem claim_C5 (s : PMState) (t : Task) (inp : InstallPlanInput)
    (hnd : isDoneSub t.subState = false)
    (hup : inp.msgType = .upgradeMsg) (hskip : inp.skipInteraction = false)
    (hno : ¬(inp.replyAction = "yes")) :
    (installPlanEvents s t inp).2 = [Event.requestInteractionEv]
  ∧ (installPlanEvents s t inp).1.state = .canceled := by
  have h1 : interactionPrelude t inp.msgType inp.skipInteraction inp.replyAction
      = (t.updateState .canceled "canceled", [Event.requestInteractionEv]) := by
    simp [interactionPrelude, hup, hskip, hno]
  have h2 : t.updateState .canceled "canceled"
      = { state := .canceled, subState := .allDone, msg := "canceled" } := by
    simp [Task.updateState, hnd, TaskState.isTerminal]
  rw [installPlanEvents, h1, h2]
  simp [isDoneSub]

/-- Witness for C5: a queued task answered with `"no"`. -/
theorem claim_C5_witness :
    (installPlanEvents wEmptyState wTask
        { remoteRef := wRefOf "org.example.calc" 1 1 0,
          localRef := some (wRefOf "org.example.calc" 1 0 0),
          hostArch := wArch, modules := ["binary"], remoteAvail := ["binary"],
          newKind := "app", msgType := .upgradeMsg, skipInteraction := false,
          replyAction := "no" }).2 = [Event.requestInteractionEv]
  ∧ (installPlanEvents wEmptyState wTask
        { remoteRef := wRefOf "org.example.calc" 1 1 0,
          localRef := some (wRefOf "org.example.calc" 1 0 0),
          hostArch := wArch, modules := ["binary"], remoteAvail := ["binary"],
          newKind := "app", msgType := .upgradeMsg, skipInteraction := false,
          replyAction := "no" }).1.state = .canceled :=
  claim_C5 wEmptyState wTask _ (by decide) (by decide) (by decide) (by decide)

/-- The rejection message of `installFromLayer` for a module label outside
binary/runtime. -/
def develRejection : SyncReply :=
  .err (-1) "The current version does not support the develop module installation." "display"

def wInfoDevel : PackageInfoV2 :=
  { wInfoApp with packageInfoV2Module := "develop" }

/-- Counterexample for C9: a single-layer bundle whose metadata declares
the module label `develop` is rejected synchronously by
`installFromLayer` — no task is created and nothing is ingested — contrary
to the claimed import-only ingestion. -/
theorem claim_C9_counterexample :
    installFromLayerEntry wEmptyState wInfoDevel wArch false = develRejection
  ∧ installFromLayerEntry wEmptyState wInfoDevel wArch false
      ≠ .task (refOfInfo wInfoDevel) "develop" := by
  constructor
  · decide
  · decide

/-- Claim C9 (amended): a single-layer bundle install whose contained
package metadata declares a module label outside binary/runtime is
rejected synchronously with an unsupported-module error; no task is
created and the layer is not ingested. -/
theorem claim_C9_amended (s : PMState) (info : PackageInfoV2) (hostArch : String)
    (force : Bool)
    (h : ¬(info.packageInfoV2Module = "binary" ∨ info.packageInfoV2Module = "runtime")) :
    installFromLayerEntry s info hostArch force = develRejection := by
  simp [installFromLayerEntry, h, develRejection]

/-- Witness for the amended C9 at the concrete `develop`-module metadata. -/
theorem claim_C9_amended_witness :
    installFromLayerEntry wBusyState wInfoDevel wArch true = develRejection :=
  claim_C9_amended wBusyState wInfoDevel wArch true (by decide)

/-! ### Lemmas about `removeAfterInstall` (C2) -/

theorem itemMatches_setDeleted (it : RepositoryCacheLayersItem) (d : Bool)
    (r : Reference) (m : String) :
    itemMatches { it with deleted := d } r m = itemMatches it r m := rfl

theorem markLoop_events (oldRef : Reference) (ms : List String) :
    ∀ s : PMState, (markLoop s oldRef ms).2 = ms.map (Event.markDeletedEv oldRef true) := by
  induction ms with
  | nil => intro s; rfl
  | cons m ms ih => intro s; simp [markLoop, ih]

theorem markLoop_exported (oldRef : Reference) (ms : List String) :
    ∀ s : PMState, (markLoop s oldRef ms).1.exported = s.exported := by
  induction ms with
  | nil => intro s; rfl
  | cons m ms ih => intro s; simp [markLoop, ih, markDeletedS]

theorem markLoop_items_length (oldRef : Reference) (ms : List String) :
    ∀ s : PMState, (markLoop s oldRef ms).1.items.length = s.items.length := by
  induction ms with
  | nil => intro s; rfl
  | cons m ms ih => intro s; simp [markLoop, ih, markDeletedS]

theorem markDeletedS_marks (s : PMState) (r : Reference) (m : String) :
    ∀ it ∈ (markDeletedS s r true m).items, itemMatches it r m = true → it.deleted = true := by
  intro it hit hm
  simp only [markDeletedS, List.mem_map] at hit
  obtain ⟨it0, hit0, heq⟩ := hit
  cases hb : itemMatches it0 r m with
  | true => simp only [hb, if_true] at heq; rw [← heq]
  | false =>
      simp only [hb, Bool.false_eq_true, if_false] at heq
      rw [← heq] at hm
      rw [hm] at hb
      exact absurd hb (by simp)

theorem markDeletedS_preserves (s : PMState) (r r' : Reference) (m m' : String)
    (h : ∀ it ∈ s.items, itemMatches it r m = true → it.deleted = true) :
    ∀ it ∈ (markDeletedS s r' true m').items,
      itemMatches it r m = true → it.deleted = true := by
  intro it hit hm
  simp only [markDeletedS, List.mem_map] at hit
  obtain ⟨it0, hit0, heq⟩ := hit
  cases hb : itemMatches it0 r' m' with
  | true => simp only [hb, if_true] at heq; rw [← heq]
  | false =>
      simp only [hb, Bool.false_eq_true, if_false] at heq
      rw [← heq] at hm ⊢
      exact h it0 hit0 hm

theorem markLoop_preserves (oldRef r : Reference) (m : String) (ms : List String) :
    ∀ s : PMState, (∀ it ∈ s.items, itemMatches it r m = true → it.deleted = true) →
      ∀ it ∈ (markLoop s oldRef ms).1.items,
        itemMatches it r m = true → it.deleted = true := by
  induction ms with
  | nil => intro s h; exact h
  | cons m0 ms ih =>
      intro s h
      simp only [markLoop]
      exact ih (markDeletedS s oldRef true m0) (markDeletedS_preserves s r oldRef m m0 h)

theorem markLoop_marks (oldRef : Reference) (ms : List String) :
    ∀ s : PMState, ∀ m ∈ ms,
      ∀ it ∈ (markLoop s oldRef ms).1.items,
        itemMatches it oldRef m = true → it.deleted = true := by
  induction ms with
  | nil => intro s m hm; cases hm
  | cons m0 ms ih =>
      intro s m hm
      simp only [markLoop]
      rcases List.mem_cons.mp hm with rfl | hm'
      · exact markLoop_preserves oldRef oldRef m ms (markDeletedS s oldRef true m)
          (markDeletedS_marks s oldRef m)
      · exact ih (markDeletedS s oldRef true m0) m hm'

/-- The per-module event block of the non-busy branch. -/
def ramEvents (oldRef : Reference) (m : String) : List Event :=
  (if m = "binary" ∨ m = "runtime" then [Event.removeCacheEv oldRef] else [])
    ++ [Event.removeItemEv oldRef m none]

theorem ramRemoveLoop_events (oldRef : Reference) (ms : List String) :
    ∀ s : PMState, (ramRemoveLoop s oldRef ms).2 = ms.flatMap (ramEvents oldRef) := by
  induction ms with
  | nil => intro s; rfl
  | cons m ms ih =>
      intro s
      simp only [ramRemoveLoop, ih, List.flatMap_cons, ramEvents]
      split <;> simp

/-- Claim C2: `removeAfterInstall(old, new, modules)` on an app-kind
transition.  If `old` is busy, each requested module of `old` is marked
deleted and nothing else happens: the trace holds only the busy-check lock
pair and the mark-deleted calls, no layer item is removed and `old` stays
exported.  If `old` is not busy, the trace is exactly: unexport `old`,
per-module cache removal (binary/runtime only) followed by the layer-item
removal, one `mergeModules`, and the export of `new`. -/
theorem claim_C2 (s : PMState) (oldRef newRef : Reference) (modules : List String) :
    (isRefBusy s oldRef = true →
        (removeAfterInstall s oldRef newRef modules).2
          = Event.lockAcquire :: Event.lockRelease ::
              modules.map (Event.markDeletedEv oldRef true)
      ∧ (removeAfterInstall s oldRef newRef modules).1.items.length = s.items.length
      ∧ (removeAfterInstall s oldRef newRef modules).1.exported = s.exported
      ∧ ∀ m ∈ modules, ∀ it ∈ (removeAfterInstall s oldRef newRef modules).1.items,
          itemMatches it oldRef m = true → it.deleted = true)
  ∧ (isRefBusy s oldRef = false →
        (removeAfterInstall s oldRef newRef modules).2
          = Event.lockAcquire :: Event.lockRelease :: Event.unexportRef oldRef ::
              modules.flatMap (ramEvents oldRef)
              ++ [Event.mergeModulesEv, Event.exportRef newRef]) := by
  constructor
  · intro hb
    refine ⟨?_, ?_, ?_, ?_⟩
    · simp [removeAfterInstall, hb, markLoop_events]
    · simp [removeAfterInstall, hb, markLoop_items_length]
    · simp [removeAfterInstall, hb, markLoop_exported]
    · intro m hm it hit
      simp only [removeAfterInstall, hb, if_true] at hit
      exact markLoop_marks oldRef modules s m hm it hit
  · intro hb
    simp [removeAfterInstall, hb, ramRemoveLoop_events]

/-- Witness for C2: a busy old reference (the flag route) and a free old
reference (the removal route) over the one-app store. -/
theorem claim_C2_witness :
    (removeAfterInstall wBusyState (refOfInfo wInfoApp) (wRefOf "org.example.calc" 1 1 0)
        ["binary"]).2
      = Event.lockAcquire :: Event.lockRelease ::
          [Event.markDeletedEv (refOfInfo wInfoApp) true "binary"]
  ∧ (removeAfterInstall wFreeState
        (refOfInfo wInfoApp) (wRefOf "org.example.calc" 1 1 0) ["binary"]).2
      = Event.lockAcquire :: Event.lockRelease :: Event.unexportRef (refOfInfo wInfoApp) ::
          ["binary"].flatMap (ramEvents (refOfInfo wInfoApp))
          ++ [Event.mergeModulesEv, Event.exportRef (wRefOf "org.example.calc" 1 1 0)] :=
  ⟨((claim_C2 wBusyState (refOfInfo wInfoApp) (wRefOf "org.example.calc" 1 1 0)
      ["binary"]).1 (by decide)).1,
   (claim_C2 wFreeState (refOfInfo wInfoApp)
      (wRefOf "org.example.calc" 1 1 0) ["binary"]).2 (by decide)⟩

/-! ### Lemmas about `deferredUninstall` (C1) -/

theorem removeItemS_keep (s : PMState) (r : Reference) (m : String)
    (it : RepositoryCacheLayersItem) (hit : it ∈ s.items) (hne : refOfItem it ≠ r) :
    it ∈ (removeItemS s r m).items := by
  simp only [removeItemS, List.mem_filter]
  exact ⟨hit, by simp [itemMatches, hne]⟩

theorem groupRemoveLoop_keep (r : Reference) (items : List RepositoryCacheLayersItem) :
    ∀ s : PMState, ∀ it ∈ s.items, refOfItem it ≠ r →
      it ∈ (groupRemoveLoop s r items).1.items := by
  induction items with
  | nil => intro s it hit _; exact hit
  | cons x xs ih =>
      intro s it hit hne
      simp only [groupRemoveLoop]
      have h1 : (if x.info.packageInfoV2Module = "binary" ∨ x.info.packageInfoV2Module = "runtime"
          then removeCacheS s r else s).items = s.items := by
        split <;> rfl
      exact ih _ it (removeItemS_keep _ r _ it (h1 ▸ hit) hne) hne

theorem processGroup_keep (g : Reference × List RepositoryCacheLayersItem) (s : PMState)
    (it : RepositoryCacheLayersItem) (hit : it ∈ s.items) (hne : refOfItem it ≠ g.1) :
    it ∈ (processGroup s g).1.items := by
  have hmem : it ∈ (groupRemoveLoop (unexportReference s g.1) g.1 g.2).1.items :=
    groupRemoveLoop_keep g.1 g.2 (unexportReference s g.1) it hit hne
  rcases hGL : groupRemoveLoop (unexportReference s g.1) g.1 g.2 with ⟨s2, evs⟩
  rw [hGL] at hmem
  simp only [processGroup, hGL]
  cases h : clearReferenceLocal s2.items (latestFuzzy g.1) with
  | some l => simpa [h, exportReference] using hmem
  | none => simpa [h] using hmem

theorem runGroups_keep (gs : List (Reference × List RepositoryCacheLayersItem)) :
    ∀ s : PMState, ∀ it ∈ s.items, (∀ g ∈ gs, refOfItem it ≠ g.1) →
      it ∈ (runGroups s gs).1.items := by
  induction gs with
  | nil => intro s it hit _; exact hit
  | cons g gs ih =>
      intro s it hit hall
      simp only [runGroups]
      exact ih _ it (processGroup_keep g s it hit (hall g (List.mem_cons_self g gs)))
        (fun g' hg' => hall g' (List.mem_cons_of_mem g hg'))

theorem groupRemoveLoop_events (r : Reference) (items : List RepositoryCacheLayersItem) :
    ∀ s : PMState, (groupRemoveLoop s r items).2 = items.flatMap (itemRemovalEvents r) := by
  induction items with
  | nil => intro s; rfl
  | cons x xs ih => intro s; simp [groupRemoveLoop, ih]

/-- The export step `deferredUninstall` performs after a group is removed:
export the newest remaining local reference with the same id, channel and
architecture, when one still resolves. -/
def latestExportEvents (st : PMState) (r : Reference) : List Event :=
  match clearReferenceLocal st.items (latestFuzzy r) with
  | some l => [Event.exportRef l]
  | none => []

theorem processGroup_events (st : PMState) (g : Reference × List RepositoryCacheLayersItem) :
    (processGroup st g).2
      = Event.unexportRef g.1 :: g.2.flatMap (itemRemovalEvents g.1)
          ++ [Event.mergeModulesEv]
          ++ latestExportEvents (groupRemoveLoop (unexportReference st g.1) g.1 g.2).1 g.1 := by
  have hev := groupRemoveLoop_events g.1 g.2 (unexportReference st g.1)
  rcases hGL : groupRemoveLoop (unexportReference st g.1) g.1 g.2 with ⟨s2, evs⟩
  rw [hGL] at hev
  simp only at hev
  simp only [processGroup, hGL, latestExportEvents]
  cases h : clearReferenceLocal s2.items (latestFuzzy g.1) with
  | some l => simp [h, hev]
  | none => simp [h, hev]

/-- Claim C1: at a deferred-uninstall tick, a deleted layer item whose
reference string equals the app string of a running container is not
removed (its group is dropped before any removal); each surviving group is
processed by unexporting its reference, removing the derived cache for its
binary/runtime modules, removing every module layer item with its recorded
subref, merging modules, and then re-exporting the newest remaining local
reference with the same id; the whole tick runs inside one lock
acquire/release pair. -/
theorem claim_C1 (s : PMState) :
    (∀ it ∈ s.items, it.deleted = true →
        s.running.contains (refOfItem it).toString = true →
        it ∈ (deferredUninstall s).1.items)
  ∧ (∀ st : PMState, ∀ g : Reference × List RepositoryCacheLayersItem,
        (processGroup st g).2
          = Event.unexportRef g.1 :: g.2.flatMap (itemRemovalEvents g.1)
              ++ [Event.mergeModulesEv]
              ++ latestExportEvents (groupRemoveLoop (unexportReference st g.1) g.1 g.2).1 g.1)
  ∧ (deferredUninstall s).2
      = Event.lockAcquire :: (runGroups s (survivingGroups s)).2 ++ [Event.lockRelease] := by
  refine ⟨?_, fun st g => processGroup_events st g, by simp [deferredUninstall]⟩
  intro it hit hdel hbusy
  have hne : ∀ g ∈ survivingGroups s, refOfItem it ≠ g.1 := by
    intro g hg heq
    have hgf := (List.mem_filter.mp hg).2
    rw [← heq, hbusy] at hgf
    simp at hgf
  have h1 : (deferredUninstall s).1 = (runGroups s (survivingGroups s)).1 := by
    simp [deferredUninstall]
  rw [h1]
  exact runGroups_keep (survivingGroups s) s it hit hne

def wInfoApp2 : PackageInfoV2 := { wInfoApp with id := "org.example.editor" }

def wItemDelBusy : RepositoryCacheLayersItem := ⟨wInfoApp, "commitA", true⟩

def wItemDelFree : RepositoryCacheLayersItem := ⟨wInfoApp2, "commitB", true⟩

def wDeferState : PMState :=
  ⟨[wItemDelBusy, wItemDelFree], [], [], [(refOfInfo wInfoApp).toString]⟩

/-- Witness for C1: a tick over a store with one busy deleted app (which
survives) and one free deleted app (whose group is processed). -/
theorem claim_C1_witness :
    wItemDelBusy ∈ (deferredUninstall wDeferState).1.items
  ∧ (processGroup wDeferState (refOfInfo wInfoApp2, [wItemDelFree])).2
      = Event.unexportRef (refOfInfo wInfoApp2)
          :: [wItemDelFree].flatMap (itemRemovalEvents (refOfInfo wInfoApp2))
          ++ [Event.mergeModulesEv]
          ++ latestExportEvents
              (groupRemoveLoop (unexportReference wDeferState (refOfInfo wInfoApp2))
                (refOfInfo wInfoApp2) [wItemDelFree]).1 (refOfInfo wInfoApp2) :=
  ⟨(claim_C1 wDeferState).1 wItemDelBusy (by decide) (by decide) (by decide),
   (claim_C1 wDeferState).2.1 wDeferState (refOfInfo wInfoApp2, [wItemDelFree])⟩

/-! ### Lemmas about `InstallRef` reconciliation (C4) -/

theorem markDeletedS_sets (s : PMState) (r : Reference) (m : String) (d : Bool) :
    ∀ it ∈ (markDeletedS s r d m).items, itemMatches it r m = true → it.deleted = d := by
  intro it hit hm
  simp only [markDeletedS, List.mem_map] at hit
  obtain ⟨it0, hit0, heq⟩ := hit
  cases hb : itemMatches it0 r m with
  | true => simp only [hb, if_true] at heq; rw [← heq]
  | false =>
      simp only [hb, Bool.false_eq_true, if_false] at heq
      rw [← heq] at hm
      rw [hm] at hb
      exact absurd hb (by simp)

theorem markDeletedS_keepsProp (s : PMState) (r r' : Reference) (m m' : String) (d : Bool)
    (h : ∀ it ∈ s.items, itemMatches it r m = true → it.deleted = d) :
    ∀ it ∈ (markDeletedS s r' d m').items,
      itemMatches it r m = true → it.deleted = d := by
  intro it hit hm
  simp only [markDeletedS, List.mem_map] at hit
  obtain ⟨it0, hit0, heq⟩ := hit
  cases hb : itemMatches it0 r' m' with
  | true => simp only [hb, if_true] at heq; rw [← heq]
  | false =>
      simp only [hb, Bool.false_eq_true, if_false] at heq
      rw [← heq] at hm ⊢
      exact h it0 hit0 hm

theorem eraseFirstMatch_sublist (p : String → Bool) :
    ∀ l : List String, List.Sublist (eraseFirstMatch p l) l := by
  intro l
  induction l with
  | nil => simp [eraseFirstMatch]
  | cons x xs ih =>
      simp only [eraseFirstMatch]
      split
      · exact List.sublist_cons_self x xs
      · exact List.Sublist.cons₂ x ih

theorem reconcileSpec_pending_sublist :
    ∀ (dl : List RepositoryCacheLayersItem) (pending : List String),
      List.Sublist (reconcileSpecModel dl pending).2 pending := by
  intro dl
  induction dl with
  | nil => intro pending; exact List.Sublist.refl pending
  | cons it rest ih =>
      intro pending
      simp only [reconcileSpecModel]
      cases findMatch (fun m => moduleEquivMatch m it.info.packageInfoV2Module) pending with
      | none => exact ih pending
      | some m0 =>
          exact (ih _).trans
            (eraseFirstMatch_sublist (fun m => moduleEquivMatch m it.info.packageInfoV2Module)
              pending)

theorem reconcileLoop_spec (ref : Reference) :
    ∀ (dl : List RepositoryCacheLayersItem) (pending : List String) (s : PMState),
      (reconcileLoop s ref dl pending).2.1 = (reconcileSpecModel dl pending).2
    ∧ clearedMarksOf (reconcileLoop s ref dl pending).2.2
        = (reconcileSpecModel dl pending).1.map (fun m => (ref, m))
    ∧ pullsOf (reconcileLoop s ref dl pending).2.2 = [] := by
  intro dl
  induction dl with
  | nil =>
      intro pending s
      exact ⟨rfl, rfl, rfl⟩
  | cons it rest ih =>
      intro pending s
      simp only [reconcileLoop, reconcileSpecModel]
      cases findMatch (fun m => moduleEquivMatch m it.info.packageInfoV2Module) pending with
      | none => exact ih pending s
      | some m0 =>
          have h := ih (eraseFirstMatch
            (fun m => moduleEquivMatch m it.info.packageInfoV2Module) pending)
            (markDeletedS s ref false it.info.packageInfoV2Module)
          refine ⟨?_, ?_, ?_⟩
          · simpa using h.1
          · simp only [clearedMarksOf] at h ⊢
            simp [h.2.1]
          · simp only [pullsOf] at h ⊢
            simp [h.2.2]

theorem reconcileLoop_keepsProp (ref r : Reference) (m : String) :
    ∀ (dl : List RepositoryCacheLayersItem) (pending : List String) (s : PMState),
      (∀ it ∈ s.items, itemMatches it r m = true → it.deleted = false) →
      ∀ it ∈ (reconcileLoop s ref dl pending).1.items,
        itemMatches it r m = true → it.deleted = false := by
  intro dl
  induction dl with
  | nil => intro pending s h; exact h
  | cons it0 rest ih =>
      intro pending s h
      simp only [reconcileLoop]
      cases findMatch (fun m => moduleEquivMatch m it0.info.packageInfoV2Module) pending with
      | none => exact ih pending s h
      | some m0 =>
          exact ih _ _ (markDeletedS_keepsProp s r ref m it0.info.packageInfoV2Module false h)

theorem reconcileLoop_clears (ref : Reference) :
    ∀ (dl : List RepositoryCacheLayersItem) (pending : List String) (s : PMState),
      ∀ m ∈ (reconcileSpecModel dl pending).1,
        ∀ it ∈ (reconcileLoop s ref dl pending).1.items,
          itemMatches it ref m = true → it.deleted = false := by
  intro dl
  induction dl with
  | nil => intro pending s m hm; cases hm
  | cons it0 rest ih =>
      intro pending s m hm
      simp only [reconcileSpecModel] at hm
      simp only [reconcileLoop]
      cases hf : findMatch (fun m => moduleEquivMatch m it0.info.packageInfoV2Module) pending with
      | none =>
          rw [hf] at hm
          exact ih pending s m hm
      | some m0 =>
          rw [hf] at hm
          simp only [List.mem_cons] at hm
          rcases hm with rfl | hm'
          · exact reconcileLoop_keepsProp ref ref it0.info.packageInfoV2Module rest _ _
              (markDeletedS_sets s ref it0.info.packageInfoV2Module false)
          · exact ih _ _ m hm'

theorem pullLoop_pulls (ref : Reference) :
    ∀ ms : List String, pullsOf (pullLoop ref ms) = ms.map (fun m => (ref, m)) := by
  intro ms
  induction ms with
  | nil => rfl
  | cons m ms ih =>
      simp only [pullLoop, pullsOf] at ih ⊢
      split <;> simp [ih]

theorem pullLoop_noMarks (ref : Reference) :
    ∀ ms : List String, clearedMarksOf (pullLoop ref ms) = [] := by
  intro ms
  induction ms with
  | nil => rfl
  | cons m ms ih =>
      simp only [pullLoop, clearedMarksOf] at ih ⊢
      split <;> simp [ih]

theorem clearedMarksOf_append (a b : List Event) :
    clearedMarksOf (a ++ b) = clearedMarksOf a ++ clearedMarksOf b := by
  simp [clearedMarksOf]

theorem pullsOf_append (a b : List Event) :
    pullsOf (a ++ b) = pullsOf a ++ pullsOf b := by
  simp [pullsOf]

/-- Claim C4: running `InstallRef(ref, modules)`, the deleted-flag clears
performed are exactly one `markDeleted(ref, false, item.module)` per stored
deleted item matching `(id, channel, version)` whose module matches (equal
or binary/runtime-equivalent) a still-pending requested module, each match
consuming that requested module from the pending pull list; the pulls
performed are exactly the remaining requested modules (a subsequence of the
request); and every matched module's layer item ends with its deleted flag
cleared. -/
theorem claim_C4 (s : PMState) (ref : Reference) (modules : List String) :
    clearedMarksOf (installRefRun s ref modules).2.2
      = (reconcileSpecModel (deletedQuery s ref) modules).1.map (fun m => (ref, m))
  ∧ pullsOf (installRefRun s ref modules).2.2
      = ((reconcileSpecModel (deletedQuery s ref) modules).2).map (fun m => (ref, m))
  ∧ (installRefRun s ref modules).2.1 = (reconcileSpecModel (deletedQuery s ref) modules).2
  ∧ List.Sublist (installRefRun s ref modules).2.1 modules
  ∧ (∀ m ∈ (reconcileSpecModel (deletedQuery s ref) modules).1,
        ∀ it ∈ (installRefRun s ref modules).1.items,
          itemMatches it ref m = true → it.deleted = false) := by
  have hspec := reconcileLoop_spec ref (deletedQuery s ref) modules s
  have hclears := reconcileLoop_clears ref (deletedQuery s ref) modules s
  rcases hRL : reconcileLoop s ref (deletedQuery s ref) modules with ⟨s1, pending, evs⟩
  rw [hRL] at hspec hclears
  simp only at hspec hclears
  obtain ⟨hp, hcm, hpu⟩ := hspec
  refine ⟨?_, ?_, ?_, ?_, ?_⟩
  · simp only [installRefRun, hRL]
    rw [show Event.storeQuery :: evs ++ pullLoop ref pending
        = (Event.storeQuery :: evs) ++ pullLoop ref pending from rfl,
      clearedMarksOf_append,
      show clearedMarksOf (Event.storeQuery :: evs) = clearedMarksOf evs from rfl,
      hcm, pullLoop_noMarks ref pending]
    simp
  · simp only [installRefRun, hRL]
    rw [show Event.storeQuery :: evs ++ pullLoop ref pending
        = (Event.storeQuery :: evs) ++ pullLoop ref pending from rfl,
      pullsOf_append,
      show pullsOf (Event.storeQuery :: evs) = pullsOf evs from rfl,
      hpu, pullLoop_pulls ref pending, hp]
    simp
  · simp only [installRefRun, hRL]
    exact hp
  · simp only [installRefRun, hRL]
    rw [hp]
    exact reconcileSpec_pending_sublist (deletedQuery s ref) modules
  · intro m hm it hit
    simp only [installRefRun, hRL] at hit
    exact hclears m hm it hit

def wC4Item : RepositoryCacheLayersItem := ⟨wInfoApp, "commitA", true⟩

def wC4State : PMState := ⟨[wC4Item], [], [], []⟩

/-- Witness for C4: a store holding one deleted binary item of the target
reference, with request `[binary, develop]`: the binary module is
reconciled (flag cleared, dropped from the pull list) and only `develop`
is pulled. -/
theorem claim_C4_witness :
    clearedMarksOf (installRefRun wC4State (refOfInfo wInfoApp) ["binary", "develop"]).2.2
      = [(refOfInfo wInfoApp, "binary")]
  ∧ pullsOf (installRefRun wC4State (refOfInfo wInfoApp) ["binary", "develop"]).2.2
      = [(refOfInfo wInfoApp, "develop")]
  ∧ ({ wC4Item with deleted := false } :
        RepositoryCacheLayersItem).deleted = false :=
  ⟨(claim_C4 wC4State (refOfInfo wInfoApp) ["binary", "develop"]).1.trans (by decide),
   (claim_C4 wC4State (refOfInfo wInfoApp) ["binary", "develop"]).2.1.trans (by decide),
   (claim_C4 wC4State (refOfInfo wInfoApp) ["binary", "develop"]).2.2.2.2 "binary" (by decide)
     ({ wC4Item with deleted := false }) (by decide) (by decide)⟩

/-! ### Lock-trace lemmas (C8) -/

def isLockEvent : Event → Bool
  | .lockAcquire => true
  | .lockRelease => true
  | _ => false

/-- The lock depth after processing a trace. -/
def depthAfter : Nat → List Event → Nat
  | d, [] => d
  | d, Event.lockAcquire :: rest => depthAfter (d + 1) rest
  | d, Event.lockRelease :: rest => depthAfter (d - 1) rest
  | d, _ :: rest => depthAfter d rest

theorem storeUnlockedFrom_append (a : List Event) :
    ∀ (d : Nat) (b : List Event),
      storeUnlockedFrom d (a ++ b)
        = (storeUnlockedFrom d a && storeUnlockedFrom (depthAfter d a) b) := by
  induction a with
  | nil => intro d b; simp [storeUnlockedFrom, depthAfter]
  | cons e rest ih =>
      intro d b
      cases e <;> simp [storeUnlockedFrom, depthAfter, ih, Bool.and_assoc]

theorem storeUnlockedFrom_lockFree (l : List Event) :
    (∀ e ∈ l, isLockEvent e = false) →
      storeUnlockedFrom 0 l = true ∧ depthAfter 0 l = 0 := by
  induction l with
  | nil => intro _; exact ⟨rfl, rfl⟩
  | cons e rest ih =>
      intro h
      have he := h e (List.mem_cons_self e rest)
      have hrest := ih (fun x hx => h x (List.mem_cons_of_mem e hx))
      cases e <;> simp_all [isLockEvent, storeUnlockedFrom, depthAfter]

theorem lockGuardedFrom_lockFree (l : List Event) :
    ∀ d : Nat, 0 < d → (∀ e ∈ l, isLockEvent e = false) →
      ∀ rest : List Event, lockGuardedFrom d (l ++ rest) = lockGuardedFrom d rest := by
  induction l with
  | nil => intro d _ _ rest; rfl
  | cons e tail ih =>
      intro d hd h rest
      have he := h e (List.mem_cons_self e tail)
      have htail := fun x hx => h x (List.mem_cons_of_mem e hx)
      cases e <;> simp_all [isLockEvent, lockGuardedFrom]

theorem itemRemovalEvents_lockFree (r : Reference) (it : RepositoryCacheLayersItem) :
    ∀ e ∈ itemRemovalEvents r it, isLockEvent e = false := by
  intro e he
  simp only [itemRemovalEvents] at he
  rcases List.mem_append.mp he with h | h
  · split at h
    · simp only [List.mem_singleton] at h; subst h; rfl
    · cases h
  · simp only [List.mem_singleton] at h; subst h; rfl

theorem latestExportEvents_lockFree (st : PMState) (r : Reference) :
    ∀ e ∈ latestExportEvents st r, isLockEvent e = false := by
  intro e he
  simp only [latestExportEvents] at he
  cases h : clearReferenceLocal st.items (latestFuzzy r) with
  | some l => rw [h] at he; simp only [List.mem_singleton] at he; subst he; rfl
  | none => rw [h] at he; cases he

theorem processGroup_lockFree (st : PMState) (g : Reference × List RepositoryCacheLayersItem) :
    ∀ e ∈ (processGroup st g).2, isLockEvent e = false := by
  intro e he
  rw [processGroup_events] at he
  rcases List.mem_cons.mp he with rfl | he'
  · rfl
  rcases List.mem_append.mp he' with h | h
  · rcases List.mem_append.mp h with h2 | h2
    · obtain ⟨it, _, hin⟩ := List.mem_flatMap.mp h2
      exact itemRemovalEvents_lockFree g.1 it e hin
    · simp only [List.mem_singleton] at h2; subst h2; rfl
  · exact latestExportEvents_lockFree _ g.1 e h

theorem runGroups_lockFree (gs : List (Reference × List RepositoryCacheLayersItem)) :
    ∀ s : PMState, ∀ e ∈ (runGroups s gs).2, isLockEvent e = false := by
  induction gs with
  | nil => intro s e he; cases he
  | cons g gs ih =>
      intro s e he
      simp only [runGroups] at he
      rcases List.mem_append.mp he with h | h
      · exact processGroup_lockFree s g e h
      · exact ih _ e h

theorem reconcileLoop_lockFree (ref : Reference) :
    ∀ (dl : List RepositoryCacheLayersItem) (pending : List String) (s : PMState),
      ∀ e ∈ (reconcileLoop s ref dl pending).2.2, isLockEvent e = false := by
  intro dl
  induction dl with
  | nil => intro pending s e he; cases he
  | cons it0 rest ih =>
      intro pending s e he
      simp only [reconcileLoop] at he
      cases hf : findMatch (fun m => moduleEquivMatch m it0.info.packageInfoV2Module) pending with
      | none => rw [hf] at he; exact ih pending s e he
      | some m0 =>
          rw [hf] at he
          simp only at he
          rcases List.mem_cons.mp he with rfl | he'
          · rfl
          · exact ih _ _ e he'

theorem pullLoop_lockFree (ref : Reference) :
    ∀ ms : List String, ∀ e ∈ pullLoop ref ms, isLockEvent e = false := by
  intro ms
  induction ms with
  | nil => intro e he; cases he
  | cons m ms ih =>
      intro e he
      simp only [pullLoop] at he
      rcases List.mem_append.mp he with h | h
      · rcases List.mem_cons.mp h with rfl | h2
        · rfl
        · split at h2
          · rcases List.mem_cons.mp h2 with rfl | h3
            · rfl
            · simp only [List.mem_singleton] at h3; subst h3; rfl
          · cases h2
      · exact ih e h

theorem installRefTaskEvents_lockFree (s : PMState) (t : Task) (hostArch : String)
    (ref : Reference) (modules : List String) :
    ∀ e ∈ (installRefTaskEvents s t hostArch ref modules).2.2, isLockEvent e = false := by
  intro e he
  simp only [installRefTaskEvents] at he
  split at he <;> split at he <;> simp at he <;>
    first
      | (subst he; rfl)
      | (rcases he with rfl | h | h <;>
          first
            | rfl
            | exact reconcileLoop_lockFree ref (deletedQuery s ref) modules s e h
            | exact pullLoop_lockFree ref _ e h)

theorem markLoop_lockFree (oldRef : Reference) (ms : List String) (s : PMState) :
    ∀ e ∈ (markLoop s oldRef ms).2, isLockEvent e = false := by
  intro e he
  rw [markLoop_events] at he
  obtain ⟨m, _, rfl⟩ := List.mem_map.mp he
  rfl

theorem ramRemoveLoop_lockFree (oldRef : Reference) (ms : List String) (s : PMState) :
    ∀ e ∈ (ramRemoveLoop s oldRef ms).2, isLockEvent e = false := by
  intro e he
  rw [ramRemoveLoop_events] at he
  obtain ⟨m, _, hin⟩ := List.mem_flatMap.mp he
  simp only [ramEvents] at hin
  rcases List.mem_append.mp hin with h | h
  · split at h
    · simp only [List.mem_singleton] at h; subst h; rfl
    · cases h
  · simp only [List.mem_singleton] at h; subst h; rfl

theorem removeAfterInstall_storeUnlocked (s : PMState) (oldRef newRef : Reference)
    (ms : List String) :
    storeUnlockedFrom 0 (removeAfterInstall s oldRef newRef ms).2 = true
  ∧ depthAfter 0 (removeAfterInstall s oldRef newRef ms).2 = 0 := by
  cases hb : isRefBusy s oldRef with
  | true =>
      simp only [removeAfterInstall, hb, if_true]
      have h := storeUnlockedFrom_lockFree ((markLoop s oldRef ms).2)
        (markLoop_lockFree oldRef ms s)
      simp [storeUnlockedFrom, depthAfter, h.1, h.2]
  | false =>
      simp only [removeAfterInstall, hb, Bool.false_eq_true, if_false]
      have hfree : ∀ e ∈ Event.unexportRef oldRef ::
          (ramRemoveLoop (unexportReference s oldRef) oldRef ms).2
            ++ [Event.mergeModulesEv, Event.exportRef newRef], isLockEvent e = false := by
        intro e he
        rcases List.mem_cons.mp he with rfl | he'
        · rfl
        rcases List.mem_append.mp he' with h | h
        · exact ramRemoveLoop_lockFree oldRef ms _ e h
        · rcases List.mem_cons.mp h with rfl | h2
          · rfl
          · simp only [List.mem_singleton] at h2; subst h2; rfl
      have h := storeUnlockedFrom_lockFree _ hfree
      simp only [storeUnlockedFrom, depthAfter]
      exact ⟨h.1, h.2⟩

theorem interactionPrelude_lockFree (t : Task) (msgType : InteractionMsgType) (skip : Bool)
    (reply : String) :
    ∀ e ∈ (interactionPrelude t msgType skip reply).2, isLockEvent e = false := by
  intro e he
  simp only [interactionPrelude] at he
  split at he
  · simp at he
    subst he
    rfl
  · simp at he

theorem storeUnlocked_append_lockFree (a b : List Event)
    (ha : ∀ e ∈ a, isLockEvent e = false) (hb : storeUnlockedFrom 0 b = true) :
    storeUnlockedFrom 0 (a ++ b) = true := by
  obtain ⟨h1, h2⟩ := storeUnlockedFrom_lockFree a ha
  rw [storeUnlockedFrom_append, h1, h2, hb]
  rfl

/-- The claim's lock discipline fails on the remote-install worker plan: an
install of a fresh app inspects and mutates layer-store state with the
repository file lock never acquired.  The concrete trace of installing
`org.example.calc/1.0.0` into an empty store violates
`lockGuarded` (store accesses at lock depth zero). -/
theorem claim_C8_counterexample :
    lockGuarded (installPlanEvents wEmptyState wTask
      { remoteRef := wRefOf "org.example.calc" 1 0 0, localRef := none, hostArch := wArch,
        modules := ["binary"], remoteAvail := ["binary"], newKind := "app",
        msgType := .installMsg, skipInteraction := true, replyAction := "yes" }).2 = false := by
  decide

/-- Claim C8 (amended): of the engine's code, only the busy check and the
deferred-uninstall tick take the repository file lock.  The tick acquires
it before touching store state and releases it at the end, with every store
access under the lock; the remote-install worker plan, in contrast,
performs all of its layer-store accesses at lock depth zero — the only
lock acquisitions in its trace are the busy check's immediately released
pair. -/
theorem claim_C8_amended :
    (∀ s : PMState, lockGuarded (deferredUninstall s).2 = true)
  ∧ (∀ (s : PMState) (t : Task) (inp : InstallPlanInput),
        storeUnlocked (installPlanEvents s t inp).2 = true) := by
  constructor
  · intro s
    have hfree := runGroups_lockFree (survivingGroups s) s
    have h1 : (deferredUninstall s).2
        = Event.lockAcquire :: ((runGroups s (survivingGroups s)).2 ++ [Event.lockRelease]) := by
      simp [deferredUninstall]
    rw [h1]
    simp only [lockGuarded, lockGuardedFrom]
    rw [lockGuardedFrom_lockFree _ 1 (by norm_num) hfree]
    simp [lockGuardedFrom]
  · intro s t inp
    rcases hP : interactionPrelude t inp.msgType inp.skipInteraction inp.replyAction
      with ⟨t1, e1⟩
    have he1 : ∀ e ∈ e1, isLockEvent e = false := by
      have h := interactionPrelude_lockFree t inp.msgType inp.skipInteraction inp.replyAction
      rw [hP] at h
      exact h
    simp only [installPlanEvents, hP, storeUnlocked]
    split
    · exact (storeUnlockedFrom_lockFree e1 he1).1
    · split
      · exact (storeUnlockedFrom_lockFree e1 he1).1
      · rcases hIR : installRefTaskEvents s (t1.updateState .processing "Installing")
            inp.hostArch inp.remoteRef
            (inp.modules.filter fun m => inp.remoteAvail.contains m) with ⟨t3, s1, e2⟩
        have he2 : ∀ e ∈ e2, isLockEvent e = false := by
          have h := installRefTaskEvents_lockFree s (t1.updateState .processing "Installing")
            inp.hostArch inp.remoteRef (inp.modules.filter fun m => inp.remoteAvail.contains m)
          rw [hIR] at h
          exact h
        have he12 : ∀ e ∈ e1 ++ e2, isLockEvent e = false := by
          intro e he
          rcases List.mem_append.mp he with h | h
          · exact he1 e h
          · exact he2 e h
        have he123 : ∀ e ∈ e1 ++ e2 ++ [Event.mergeModulesEv, Event.storeQuery],
            isLockEvent e = false := by
          intro e he
          rcases List.mem_append.mp he with h | h
          · exact he12 e h
          · rcases List.mem_cons.mp h with rfl | h2
            · rfl
            · simp only [List.mem_singleton] at h2
              subst h2
              rfl
        simp only [hIR]
        split
        · exact (storeUnlockedFrom_lockFree _ he12).1
        · split
          · cases hL : inp.localRef with
            | some oldRef =>
                rcases hRA : removeAfterInstall s1 oldRef inp.remoteRef inp.modules
                  with ⟨s3, e4⟩
                have h4 := removeAfterInstall_storeUnlocked s1 oldRef inp.remoteRef inp.modules
                rw [hRA] at h4
                simp only at h4
                have hb : storeUnlockedFrom 0
                    (e4 ++ [Event.generateCacheEv inp.remoteRef]) = true := by
                  rw [storeUnlockedFrom_append, h4.1, h4.2]
                  simp [storeUnlockedFrom, isStoreAccess]
                simp only [hL, hRA]
                rw [List.append_assoc (e1 ++ e2 ++ [Event.mergeModulesEv, Event.storeQuery])
                  e4 [Event.generateCacheEv inp.remoteRef]]
                exact storeUnlocked_append_lockFree _ _ he123 hb
            | none =>
                simp only [hL]
                have hall : ∀ e ∈ e1 ++ e2 ++ [Event.mergeModulesEv, Event.storeQuery]
                    ++ [Event.exportRef inp.remoteRef, Event.generateCacheEv inp.remoteRef],
                    isLockEvent e = false := by
                  intro e he
                  rcases List.mem_append.mp he with h | h
                  · exact he123 e h
                  · rcases List.mem_cons.mp h with rfl | h2
                    · rfl
                    · simp only [List.mem_singleton] at h2
                      subst h2
                      rfl
                exact (storeUnlockedFrom_lockFree _ hall).1
          · exact (storeUnlockedFrom_lockFree _ he123).1

/-! ### Lemmas about `Prune` (C7) -/

theorem removeItemS_not_matching (s : PMState) (r : Reference) (m : String) :
    ∀ it ∈ (removeItemS s r m).items, itemMatches it r m = false := by
  intro it hit
  have h := (List.mem_filter.mp hit).2
  simpa using h

theorem removeModsLoop_mono (r : Reference) :
    ∀ (ms : List String) (s : PMState) (x : RepositoryCacheLayersItem),
      x ∈ (removeModsLoop s r ms).1.items → x ∈ s.items := by
  intro ms
  induction ms with
  | nil => intro s x h; exact h
  | cons m0 ms ih =>
      intro s x h
      simp only [removeModsLoop] at h
      cases hf : s.items.find? (fun it => itemMatches it r m0) with
      | none => rw [hf] at h; exact ih s x h
      | some it0 =>
          rw [hf] at h
          simp only at h
          have hx := ih _ x h
          exact List.mem_of_mem_filter hx

theorem removeModsLoop_removes (r : Reference) :
    ∀ (ms : List String) (s : PMState), ∀ m ∈ ms,
      ∀ it ∈ s.items, itemMatches it r m = true →
        it ∉ (removeModsLoop s r ms).1.items := by
  intro ms
  induction ms with
  | nil => intro s m hm; cases hm
  | cons m0 ms ih =>
      intro s m hm it hit hmatch hfin
      simp only [removeModsLoop] at hfin
      cases hf : s.items.find? (fun it => itemMatches it r m0) with
      | none =>
          rw [hf] at hfin
          rcases List.mem_cons.mp hm with rfl | hm'
          · exact absurd hmatch (by
              have := List.find?_eq_none.mp hf it hit
              simpa using this)
          · exact ih s m hm' it hit hmatch hfin
      | some it0 =>
          rw [hf] at hfin
          simp only at hfin
          by_cases hin : it ∈ (removeItemS s r m0).items
          · rcases List.mem_cons.mp hm with rfl | hm'
            · have hcontra := removeItemS_not_matching s r m it hin
              rw [hmatch] at hcontra
              simp at hcontra
            · exact ih _ m hm' it hin hmatch hfin
          · exact hin (removeModsLoop_mono r ms _ it hfin)

theorem pruneRemoveLoop_mono :
    ∀ (tgt : List (Reference × Nat)) (s : PMState) (x : RepositoryCacheLayersItem),
      x ∈ (pruneRemoveLoop s tgt).1.items → x ∈ s.items := by
  intro tgt
  induction tgt with
  | nil => intro s x h; exact h
  | cons p rest ih =>
      intro s x h
      rcases p with ⟨r, n⟩
      simp only [pruneRemoveLoop] at h
      by_cases hn : n = 0
      · simp only [hn, if_true] at h
        exact removeModsLoop_mono r (moduleListOf s r) s x (ih _ x h)
      · simp only [hn, if_false] at h
        exact ih s x h

theorem itemMatches_self (it : RepositoryCacheLayersItem) :
    itemMatches it (refOfItem it) it.info.packageInfoV2Module = true := by
  simp [itemMatches]

theorem module_mem_moduleListOf (s : PMState) (it : RepositoryCacheLayersItem)
    (hit : it ∈ s.items) (hdel : it.deleted = false) :
    it.info.packageInfoV2Module ∈ moduleListOf s (refOfItem it) := by
  have h1 : it.info ∈ listLocal s := by
    simp only [listLocal, List.mem_map]
    exact ⟨it, List.mem_filter.mpr ⟨hit, by simp [hdel]⟩, rfl⟩
  simp only [moduleListOf, List.mem_map]
  refine ⟨it.info, List.mem_filter.mpr ⟨h1, ?_⟩, rfl⟩
  simp [refOfItem]

theorem pruneRemoveLoop_removes :
    ∀ (tgt : List (Reference × Nat)) (s : PMState) (r : Reference)
      (it : RepositoryCacheLayersItem),
      (r, 0) ∈ tgt → it ∈ s.items → it.deleted = false → refOfItem it = r →
        it ∉ (pruneRemoveLoop s tgt).1.items := by
  intro tgt
  induction tgt with
  | nil => intro s r it hmem; cases hmem
  | cons p rest ih =>
      intro s r it hmem hit hdel href hfin
      rcases p with ⟨r', n'⟩
      simp only [pruneRemoveLoop] at hfin
      rcases List.mem_cons.mp hmem with heq | hmem'
      · have h1 : r = r' := congrArg Prod.fst heq
        have h2 : (0 : Nat) = n' := congrArg Prod.snd heq
        subst h1
        simp only [← h2, if_true] at hfin
        have hm : it.info.packageInfoV2Module ∈ moduleListOf s (refOfItem it) :=
          module_mem_moduleListOf s it hit hdel
        rw [href] at hm
        have hrm := removeModsLoop_removes r (moduleListOf s r) s
          it.info.packageInfoV2Module hm it hit (href ▸ itemMatches_self it)
        exact hrm (pruneRemoveLoop_mono rest _ it hfin)
      · by_cases hn : n' = 0
        · simp only [hn, if_true] at hfin
          by_cases hin : it ∈ (removeRefModules s r').1.items
          · exact ih _ r it hmem' hin hdel href hfin
          · exact hin (pruneRemoveLoop_mono rest _ it hfin)
        · simp only [hn, if_false] at hfin
          exact ih s r it hmem' hit hdel href hfin

theorem zeroKeys_cons_zero (r : Reference) (rest : List (Reference × Nat)) :
    zeroKeys ((r, 0) :: rest) = r :: zeroKeys rest := by
  simp [zeroKeys]

theorem zeroKeys_cons_pos (r : Reference) (n : Nat) (hn : ¬(n = 0))
    (rest : List (Reference × Nat)) :
    zeroKeys ((r, n) :: rest) = zeroKeys rest := by
  simp [zeroKeys, hn]

theorem removeModsLoop_keep (r : Reference) :
    ∀ (ms : List String) (s : PMState) (x : RepositoryCacheLayersItem),
      x ∈ s.items → refOfItem x ≠ r → x ∈ (removeModsLoop s r ms).1.items := by
  intro ms
  induction ms with
  | nil => intro s x hx _; exact hx
  | cons m0 ms ih =>
      intro s x hx hne
      simp only [removeModsLoop]
      cases hf : s.items.find? (fun y => itemMatches y r m0) with
      | none => exact ih s x hx hne
      | some y =>
          simp only
          exact ih _ x (removeItemS_keep s r m0 x hx hne) hne

theorem pruneRemoveLoop_only_zero :
    ∀ (tgt : List (Reference × Nat)) (s : PMState) (it : RepositoryCacheLayersItem),
      it ∈ s.items → it ∉ (pruneRemoveLoop s tgt).1.items →
        refOfItem it ∈ zeroKeys tgt := by
  intro tgt
  induction tgt with
  | nil => intro s it hit hfin; exact absurd hit hfin
  | cons p rest ih =>
      intro s it hit hfin
      rcases p with ⟨r', n'⟩
      simp only [pruneRemoveLoop] at hfin
      by_cases hn : n' = 0
      · subst hn
        rw [zeroKeys_cons_zero]
        simp only [if_true] at hfin
        by_cases heq : refOfItem it = r'
        · rw [heq]
          exact List.mem_cons_self r' (zeroKeys rest)
        · have hin : it ∈ (removeRefModules s r').1.items :=
            removeModsLoop_keep r' (moduleListOf s r') s it hit heq
          exact List.mem_cons_of_mem r' (ih _ it hin hfin)
      · rw [zeroKeys_cons_pos r' n' hn]
        simp only [hn, if_false] at hfin
        exact ih s it hit hfin

theorem removeModsLoop_noMerge (r : Reference) :
    ∀ (ms : List String) (s : PMState),
      Event.mergeModulesEv ∉ (removeModsLoop s r ms).2.2 := by
  intro ms
  induction ms with
  | nil => intro s h; cases h
  | cons m0 ms ih =>
      intro s h
      simp only [removeModsLoop] at h
      cases hf : s.items.find? (fun it => itemMatches it r m0) with
      | none => rw [hf] at h; exact ih s h
      | some it0 =>
          rw [hf] at h
          simp only at h
          rcases List.mem_cons.mp h with h1 | h2
          · cases h1
          · rcases List.mem_cons.mp h2 with h3 | h4
            · cases h3
            · exact ih _ h4

theorem pruneRemoveLoop_noMerge :
    ∀ (tgt : List (Reference × Nat)) (s : PMState),
      Event.mergeModulesEv ∉ (pruneRemoveLoop s tgt).2.2 := by
  intro tgt
  induction tgt with
  | nil => intro s h; cases h
  | cons p rest ih =>
      intro s h
      rcases p with ⟨r, n⟩
      simp only [pruneRemoveLoop] at h
      by_cases hn : n = 0
      · simp only [hn, if_true] at h
        rcases List.mem_append.mp h with h1 | h2
        · exact removeModsLoop_noMerge r (moduleListOf s r) s h1
        · exact ih _ h2
      · simp only [hn, if_false] at h
        exact ih s h

theorem zeroKeys_mem (tgt : List (Reference × Nat)) (r : Reference) (h : r ∈ zeroKeys tgt) :
    (r, 0) ∈ tgt := by
  simp only [zeroKeys, List.mem_map] at h
  obtain ⟨p, hp, rfl⟩ := h
  have h3 : p.2 = 0 := by simpa using (List.mem_filter.mp hp).2
  have h4 := (List.mem_filter.mp hp).1
  rw [← h3]
  exact h4

def wInfoPruneApp : PackageInfoV2 :=
  { channel := "main", id := "org.example.calc", version := wVer 1 0 0, arch := wArch,
    kind := "app", packageInfoV2Module := "binary",
    base := ⟨none, "org.base1", none, none⟩,
    runtime := some ⟨none, "org.rt1", none, none⟩, uuid := none }

def wInfoBase : PackageInfoV2 :=
  { channel := "main", id := "org.base1", version := wVer 1 0 0, arch := wArch,
    kind := "base", packageInfoV2Module := "binary",
    base := ⟨none, "org.bottom", none, none⟩, runtime := none, uuid := none }

def wPruneState : PMState :=
  ⟨[⟨wInfoPruneApp, "commitA", false⟩, ⟨wInfoBase, "commitB", false⟩], [], [], []⟩

/-- Counterexample for C7: app `org.example.calc` declares runtime
`org.rt1` (not resolvable locally) and base `org.base1` (locally
installed).  Under the claim's counting the base receives one reference
count from the app and must survive, but the `continue` on the failed
runtime resolution skips the base increment too, so `Prune` removes
`org.base1`. -/
theorem claim_C7_counterexample :
    wInfoBase ∈ (pruneExec wPruneState).2.1
  ∧ claimRefCount wPruneState (refOfInfo wInfoBase) = 1 := by
  constructor
  · decide
  · decide

/-- Claim C7 (amended): the removal pass of `Prune` removes exactly the
layer items of candidate references with reference count zero, where a
binary/runtime non-app item enters the candidate map with count zero and a
binary/runtime app item bumps its locally resolved runtime and base —
except that an app whose declared runtime fails local resolution
contributes no count for its base either; every locally listed module of a
zero-count reference is removed; `merge_modules` runs only when the
candidate map is nonempty, and the layer store's prune always runs. -/
theorem claim_C7_amended (s : PMState) :
    (∀ it ∈ s.items, it ∉ (pruneExec s).1.items → refOfItem it ∈ zeroRefs s)
  ∧ (∀ r ∈ zeroRefs s, ∀ it ∈ s.items, it.deleted = false → refOfItem it = r →
        it ∉ (pruneExec s).1.items)
  ∧ (Event.mergeModulesEv ∈ (pruneExec s).2.2 ↔ ¬(pruneCounts s = []))
  ∧ Event.pruneStoreEv ∈ (pruneExec s).2.2 := by
  have hfst : (pruneExec s).1 = (pruneRemoveLoop s (pruneCounts s)).1 := by
    rcases hPR : pruneRemoveLoop s (pruneCounts s) with ⟨s1, infos, e1⟩
    simp [pruneExec, hPR]
  refine ⟨?_, ?_, ?_, ?_⟩
  · intro it hit hnot
    rw [hfst] at hnot
    exact pruneRemoveLoop_only_zero (pruneCounts s) s it hit hnot
  · intro r hr it hit hdel href
    rw [hfst]
    exact pruneRemoveLoop_removes (pruneCounts s) s r it
      (zeroKeys_mem (pruneCounts s) r hr) hit hdel href
  · by_cases hae : pruneCounts s = []
    · simp [pruneExec, hae, pruneRemoveLoop]
    · have hX : (pruneCounts s).isEmpty = false := by
        cases hc : pruneCounts s with
        | nil => exact absurd hc hae
        | cons a l => rfl
      rcases hPR : pruneRemoveLoop s (pruneCounts s) with ⟨s1, infos, e1⟩
      simp [pruneExec, hPR, hX, hae]
  · rcases hPR : pruneRemoveLoop s (pruneCounts s) with ⟨s1, infos, e1⟩
    simp [pruneExec, hPR]

/-- Witness for the amended C7: on the counterexample store the orphan
base's layer item is physically removed and the store prune runs. -/
theorem claim_C7_amended_witness :
    (⟨wInfoBase, "commitB", false⟩ : RepositoryCacheLayersItem)
      ∉ (pruneExec wPruneState).1.items
  ∧ Event.pruneStoreEv ∈ (pruneExec wPruneState).2.2 :=
  ⟨(claim_C7_amended wPruneState).2.1 (refOfInfo wInfoBase) (by decide)
      ⟨wInfoBase, "commitB", false⟩ (by decide) (by decide) (by decide),
   (claim_C7_amended wPruneState).2.2.2⟩

end Linglong
